import Mathlib

/-! The file `log_entry.go` of spectator-go.

A shallow embedding of `src/log_entry.go` and the properties of its path
extractor (`pathFromUrl`) and of the call measurement (`LogEntry`).

Conventions of the embedding

* A Go `string` is its sequence of bytes (`GoString`); `len`, indexing and
  slicing are byte based, as in Go.
* Go `int` indices are `Int`; `strings.IndexByte` and `strings.IndexAny`
  return `-1` when nothing is found.
* A slice expression `s[lo:]` / `s[lo:hi]` panics in Go when the indices are
  out of range; the embedding returns `none` for a panic.
* `int64` arithmetic wraps (`wrapInt64`).
-/

namespace Spectator

/-! ## Strings -/

/-- A Go string: an immutable sequence of bytes. -/
abbrev GoString := List UInt8

/-- The bytes (UTF-8) of a string literal of the source. -/
def str (s : String) : GoString := s.toUTF8.data.toList

/-- Go `len(s)` as an `int`. -/
def len (s : GoString) : Int := (s.length : Int)

/-- Go `strings.IndexByte(s, c)`: index of the first byte equal to `c`, or `-1`. -/
def IndexByte : GoString → UInt8 → Int
  | [], _ => -1
  | b :: s, c =>
    if b = c then 0
    else
      let i := IndexByte s c
      if i < 0 then -1 else i + 1

/-- Go `strings.IndexAny(s, chars)` for a set `chars` of ASCII characters: index
of the first byte of `s` that occurs in `chars`, or `-1`.  (An ASCII byte of a Go
string is always a code point of its own, so the search by code points of the
library coincides with this search by bytes.) -/
def IndexAny : GoString → GoString → Int
  | [], _ => -1
  | b :: s, chars =>
    if b ∈ chars then 0
    else
      let i := IndexAny s chars
      if i < 0 then -1 else i + 1

/-- Go `s[lo:]`; `none` is the run-time panic for an index out of range. -/
def sliceFrom (s : GoString) (lo : Int) : Option GoString :=
  if 0 ≤ lo ∧ lo ≤ len s then some (s.drop lo.toNat) else none

/-- Go `s[lo:hi]`; `none` is the run-time panic for indices out of range. -/
def slice (s : GoString) (lo hi : Int) : Option GoString :=
  if 0 ≤ lo ∧ lo ≤ hi ∧ hi ≤ len s then some ((s.take hi.toNat).drop lo.toNat) else none

/-! ## `pathFromUrl` -/

/-- The function `pathFromUrl` of `log_entry.go` (lines 70-103). -/
def pathFromUrl (url : GoString) : Option GoString :=
  if url = [] then some (str "/")
  else
    let protoEnd := IndexByte url ':'.toUInt8
    if protoEnd < 0 then some url
    else
      let protocolLen := len url - protoEnd
      if protocolLen < 3 then some url
      else
        (sliceFrom url (protoEnd + 3)).bind fun afterProto =>
          let pathBegin0 := IndexByte afterProto '/'.toUInt8
          if pathBegin0 < 0 then some (str "/")
          else
            let pathBegin := pathBegin0 + (protoEnd + 3)
            (sliceFrom url (pathBegin + 1)).bind fun afterSlash =>
              let pathEnd0 := IndexAny afterSlash (str "?#;")
              if pathEnd0 < 0 then sliceFrom url pathBegin
              else
                let pathEnd := pathEnd0 + (pathBegin + 1)
                slice url pathBegin pathEnd

/-! ## Machine integers and `strconv` -/

/-- The value of an integer in Go `int64` arithmetic (two's complement wrap-around). -/
def wrapInt64 (x : Int) : Int := (x + 2 ^ 63) % 2 ^ 64 - 2 ^ 63

/-- The integer is a value of Go `int64`. -/
def isInt64 (x : Int) : Prop := -(2 ^ 63) ≤ x ∧ x < 2 ^ 63

instance (x : Int) : Decidable (isInt64 x) := by
  unfold isInt64; infer_instance

/-- The ASCII digit of a number below ten. -/
def digitByte (d : Nat) : UInt8 := UInt8.ofNat (48 + d)

/-- Decimal digits of `n`, most significant first; the first argument bounds the
number of digits. -/
def natDigits : Nat → Nat → GoString
  | 0, _ => []
  | fuel + 1, n =>
    if n < 10 then [digitByte n] else natDigits fuel (n / 10) ++ [digitByte (n % 10)]

/-- Go `strconv.Itoa(i)`: the decimal form of `i`, with a leading `-` when negative. -/
def Itoa (i : Int) : GoString :=
  if i < 0 then '-'.toUInt8 :: natDigits (i.natAbs + 1) i.natAbs
  else natDigits (i.natAbs + 1) i.natAbs

/-- Go `strconv.FormatBool(b)`. -/
def FormatBool (b : Bool) : GoString :=
  if b then str "true" else str "false"

/-! ## Identifiers and the registry -/

/-- A Go `map[string]string`: a key is absent (`none`) or bound to a value. -/
abbrev GoMap := GoString → Option GoString

/-- A map literal `map[string]string{k1: v1, k2: v2, ...}` (its keys are distinct). -/
def mapLit : List (GoString × GoString) → GoMap
  | [] => fun _ => none
  | (k, v) :: rest => fun x => if x = k then some v else mapLit rest x

/-- The map `base` with the bindings of `extra` added, overwriting. -/
def mergeTags (base extra : GoMap) : GoMap := fun x =>
  match extra x with
  | some v => some v
  | none => base x

/-- Modelled from the spec: the type `Id` is declared outside `log_entry.go`.  An
identifier combines a metric name with a mapping from tag key to tag value (keys
unique, order irrelevant). -/
structure Id where
  name : GoString
  tags : GoMap

/-- Modelled from the spec: `Id.WithTag(key, value)`, missing from the source at
hand, returns a new identifier with the tag added or overwritten. -/
def Id.WithTag (id : Id) (key value : GoString) : Id :=
  { id with tags := fun x => if x = key then some value else id.tags x }

/-- Modelled from the spec: `Id.WithTags(mapping)`, missing from the source at hand,
returns a new identifier with the tags of the mapping merged in, overwriting. -/
def Id.WithTags (id : Id) (extra : GoMap) : Id :=
  { id with tags := mergeTags id.tags extra }

/-- One call received by the timer-recording entry point `IpcTimerRecord`:
the registry it was given (its address), the identifier and the duration. -/
structure TimerCall where
  registry : Nat
  id : Id
  duration : Int

/-- Modelled from the spec: the type `Registry` is declared outside `log_entry.go`.
A registry gives access to a clock and to the configured timer-recording entry
point.  Its state is: its address (the `*Registry` value), the reading its clock
returns now (`Clock().Nanos()`, an `int64`), and the calls `config.IpcTimerRecord`
has received so far, oldest first. -/
structure Registry where
  ptr : Nat
  clockNanos : Int
  timerCalls : List TimerCall

/-- Modelled from the spec: `Registry.NewId(name, tags)`, missing from the source at
hand, constructs a named, tagged identifier. -/
def Registry.NewId (_r : Registry) (name : GoString) (tags : GoMap) : Id :=
  { name := name, tags := tags }

/-- Modelled from the spec: `r.config.IpcTimerRecord(r, id, duration)`, missing from
the source at hand, records one duration measurement under the identifier. -/
def Registry.IpcTimerRecord (r : Registry) (id : Id) (duration : Int) : Registry :=
  { r with timerCalls := r.timerCalls ++ [{ registry := r.ptr, id := id, duration := duration }] }

/-! ## `LogEntry` -/

/-- The struct `LogEntry` (lines 12-16); `registry` is the address of the registry. -/
structure LogEntry where
  registry : Nat
  start : Int
  id : Id

/-- The function `attempt` (lines 59-68). -/
def attempt (n : Int) : GoString :=
  if n = 0 then str "initial"
  else if n = 1 then str "second"
  else str "third_up"

/-- The method `SetStatusCode` (lines 19-21). -/
def LogEntry.SetStatusCode (entry : LogEntry) (code : Int) : LogEntry :=
  { entry with id := entry.id.WithTag (str "http.status") (Itoa code) }

/-- The method `SetSuccess` (lines 24-30). -/
def LogEntry.SetSuccess (entry : LogEntry) : LogEntry :=
  let extraTags := mapLit [(str "ipc.result", str "success"), (str "ipc.status", str "success")]
  { entry with id := entry.id.WithTags extraTags }

/-- The method `SetError` (lines 34-40). -/
def LogEntry.SetError (entry : LogEntry) (err : GoString) : LogEntry :=
  let extraTags := mapLit [(str "ipc.result", str "failure"), (str "ipc.status", err)]
  { entry with id := entry.id.WithTags extraTags }

/-- The method `SetAttempt` (lines 43-49). -/
def LogEntry.SetAttempt (entry : LogEntry) (attemptNumber : Int) (final : Bool) : LogEntry :=
  let extraTags := mapLit [(str "ipc.attempt", attempt attemptNumber),
    (str "ipc.attempt.final", FormatBool final)]
  { entry with id := entry.id.WithTags extraTags }

/-- The method `Log` (lines 53-57).  The argument `r` is the state of the registry
the entry points to; the result is the entry and the registry after the call. -/
def LogEntry.Log (entry : LogEntry) (r : Registry) : LogEntry × Registry :=
  let duration := wrapInt64 (r.clockNanos - entry.start)
  (entry, r.IpcTimerRecord entry.id duration)

/-- The function `NewLogEntry` (lines 106-117); `none` when `pathFromUrl` panics. -/
def NewLogEntry (registry : Registry) (method url : GoString) : Option LogEntry :=
  (pathFromUrl url).bind fun endpoint =>
    let tags := mapLit [(str "owner", str "spectator-go"), (str "ipc.endpoint", endpoint),
      (str "http.method", method), (str "http.status", str "-1")]
    some { registry := registry.ptr, start := registry.clockNanos,
           id := registry.NewId (str "ipc.client.call") tags }

/-- The four tag setters of a `LogEntry`, with their arguments. -/
inductive Setter where
  | statusCode (code : Int)
  | success
  | error (err : GoString)
  | attempt (attemptNumber : Int) (final : Bool)

/-- Which of the four setters a call belongs to. -/
def Setter.kind : Setter → Nat
  | .statusCode _ => 0
  | .success => 1
  | .error _ => 2
  | .attempt _ _ => 3

/-- Apply a setter call to an entry. -/
def Setter.apply : Setter → LogEntry → LogEntry
  | .statusCode code, entry => entry.SetStatusCode code
  | .success, entry => entry.SetSuccess
  | .error err, entry => entry.SetError err
  | .attempt n final, entry => entry.SetAttempt n final

/-- The tags a setter call writes, as a map. -/
def Setter.extra : Setter → GoMap
  | .statusCode code => mapLit [(str "http.status", Itoa code)]
  | .success => mapLit [(str "ipc.result", str "success"), (str "ipc.status", str "success")]
  | .error err => mapLit [(str "ipc.result", str "failure"), (str "ipc.status", err)]
  | .attempt n final => mapLit [(str "ipc.attempt", Spectator.attempt n),
      (str "ipc.attempt.final", FormatBool final)]

/-- The tag keys a setter call writes. -/
def Setter.keys : Setter → List GoString
  | .statusCode _ => [str "http.status"]
  | .success => [str "ipc.result", str "ipc.status"]
  | .error _ => [str "ipc.result", str "ipc.status"]
  | .attempt _ _ => [str "ipc.attempt", str "ipc.attempt.final"]

/-- The two setters write the same tag keys (`SetSuccess` and `SetError` both write
`ipc.result` and `ipc.status`). -/
def Setter.sameKeys (a b : Setter) : Bool :=
  (a.kind = 1 ∧ b.kind = 2) ∨ (a.kind = 2 ∧ b.kind = 1)

/-- An entry as `NewLogEntry` builds it for `GET http://x/a/b` at clock reading 5. -/
def sampleEntry : LogEntry :=
  { registry := 0, start := 5,
    id := { name := str "ipc.client.call",
            tags := mapLit [(str "owner", str "spectator-go"), (str "ipc.endpoint", str "/a/b"),
              (str "http.method", str "GET"), (str "http.status", str "-1")] } }

/-- Apply a sequence of setter calls to an entry, the first call first. -/
def applySetters (calls : List Setter) (entry : LogEntry) : LogEntry :=
  calls.foldl (fun e s => s.apply e) entry

/-- The fixed set of tag keys of the module. -/
def knownKeys : List GoString :=
  [str "owner", str "ipc.endpoint", str "http.method", str "http.status",
   str "ipc.result", str "ipc.status", str "ipc.attempt", str "ipc.attempt.final"]

/-- The value of an ASCII digit. -/
def digitValue (b : UInt8) : Option Nat :=
  if 48 ≤ b.toNat ∧ b.toNat ≤ 57 then some (b.toNat - 48) else none

/-- Read a run of decimal digits, most significant first, onto the value read so far. -/
def parseDigits (acc : Nat) : GoString → Option Nat
  | [] => some acc
  | b :: s => (digitValue b).bind fun d => parseDigits (acc * 10 + d) s

/-- Parse a string as a decimal integer: an optional leading `-` and one or more
digits; anything else is rejected. -/
def parseDecimal : GoString → Option Int
  | [] => none
  | b :: s =>
    if b = '-'.toUInt8 then
      if s = [] then none else (parseDigits 0 s).map fun (n : Nat) => -(n : Int)
    else (parseDigits 0 (b :: s)).map fun (n : Nat) => (n : Int)

/-! ## Library facts: `IndexByte`, `IndexAny`, slices -/

theorem len_nonneg (s : GoString) : 0 ≤ len s := by
  unfold len; omega

theorem len_append (s t : GoString) : len (s ++ t) = len s + len t := by
  simp [len]

theorem len_cons (b : UInt8) (s : GoString) : len (b :: s) = len s + 1 := by
  simp [len]

theorem IndexByte_cons (b c : UInt8) (s : GoString) :
    IndexByte (b :: s) c =
      if b = c then 0 else if IndexByte s c < 0 then -1 else IndexByte s c + 1 := rfl

theorem IndexAny_cons (b : UInt8) (s chars : GoString) :
    IndexAny (b :: s) chars =
      if b ∈ chars then 0 else if IndexAny s chars < 0 then -1 else IndexAny s chars + 1 := rfl

theorem IndexByte_ge (s : GoString) (c : UInt8) : -1 ≤ IndexByte s c := by
  induction s with
  | nil => simp [IndexByte]
  | cons b s ih =>
    simp only [IndexByte]
    split_ifs <;> omega

theorem IndexByte_lt_len (s : GoString) (c : UInt8) : IndexByte s c < len s := by
  induction s with
  | nil => simp [IndexByte, len]
  | cons b s ih =>
    have := len_nonneg s
    simp only [IndexByte, len_cons]
    split_ifs <;> omega

theorem IndexByte_not_mem {s : GoString} {c : UInt8} (h : c ∉ s) : IndexByte s c = -1 := by
  induction s with
  | nil => simp [IndexByte]
  | cons b s ih =>
    have hb : b ≠ c := fun e => h (by simp [e])
    have hs : c ∉ s := fun e => h (by simp [e])
    simp [IndexByte, hb, ih hs]

theorem IndexByte_append_cons {s : GoString} {c : UInt8} (t : GoString) (h : c ∉ s) :
    IndexByte (s ++ c :: t) c = len s := by
  induction s with
  | nil => simp [IndexByte, len]
  | cons b s ih =>
    have hb : b ≠ c := fun e => h (by simp [e])
    have hs : c ∉ s := fun e => h (by simp [e])
    have h0 := len_nonneg s
    rw [List.cons_append, IndexByte_cons, ih hs, len_cons, if_neg hb]
    split_ifs <;> omega

/-- Every string splits at the first occurrence of a byte it contains. -/
theorem split_first {c : UInt8} {l : GoString} (h : c ∈ l) :
    ∃ s t, l = s ++ c :: t ∧ c ∉ s := by
  induction l with
  | nil => simp at h
  | cons b l ih =>
    by_cases hb : b = c
    · exact ⟨[], l, by simp [hb], by simp⟩
    · have hl : c ∈ l := by
        rcases List.mem_cons.mp h with e | e
        · exact absurd e.symm hb
        · exact e
      obtain ⟨s, t, rfl, hs⟩ := ih hl
      refine ⟨b :: s, t, by simp, ?_⟩
      intro hm
      rcases List.mem_cons.mp hm with e | e
      · exact hb e.symm
      · exact hs e

/-- Every string splits into a prefix free of the bytes of `chars` and a rest that
is empty or starts with a byte of `chars`. -/
theorem split_any (chars l : GoString) :
    ∃ p rest, l = p ++ rest ∧ (∀ b ∈ p, b ∉ chars) ∧
      (rest = [] ∨ ∃ d r, rest = d :: r ∧ d ∈ chars) := by
  induction l with
  | nil => exact ⟨[], [], by simp, by simp, Or.inl rfl⟩
  | cons b l ih =>
    by_cases hb : b ∈ chars
    · exact ⟨[], b :: l, by simp, by simp, Or.inr ⟨b, l, rfl, hb⟩⟩
    · obtain ⟨p, rest, rfl, hp, hr⟩ := ih
      refine ⟨b :: p, rest, by simp, ?_, hr⟩
      intro x hx
      rcases List.mem_cons.mp hx with e | e
      · rw [e]; exact hb
      · exact hp x e

theorem IndexByte_neg_iff (s : GoString) (c : UInt8) : IndexByte s c < 0 ↔ c ∉ s := by
  constructor
  · intro h hm
    obtain ⟨a, b, rfl, ha⟩ := split_first hm
    rw [IndexByte_append_cons b ha] at h
    have := len_nonneg a
    omega
  · intro h
    rw [IndexByte_not_mem h]; omega

theorem IndexAny_ge (s chars : GoString) : -1 ≤ IndexAny s chars := by
  induction s with
  | nil => simp [IndexAny]
  | cons b s ih =>
    simp only [IndexAny]
    split_ifs <;> omega

theorem IndexAny_lt_len (s chars : GoString) : IndexAny s chars < len s := by
  induction s with
  | nil => simp [IndexAny, len]
  | cons b s ih =>
    have := len_nonneg s
    simp only [IndexAny, len_cons]
    split_ifs <;> omega

theorem IndexAny_none {s chars : GoString} (h : ∀ b ∈ s, b ∉ chars) : IndexAny s chars = -1 := by
  induction s with
  | nil => simp [IndexAny]
  | cons b s ih =>
    have hb : b ∉ chars := h b (by simp)
    have hs : ∀ x ∈ s, x ∉ chars := fun x hx => h x (by simp [hx])
    simp [IndexAny, hb, ih hs]

theorem IndexAny_append_cons {s chars : GoString} {d : UInt8} (t : GoString)
    (h : ∀ b ∈ s, b ∉ chars) (hd : d ∈ chars) : IndexAny (s ++ d :: t) chars = len s := by
  induction s with
  | nil => simp [IndexAny, len, hd]
  | cons b s ih =>
    have hb : b ∉ chars := h b (by simp)
    have hs : ∀ x ∈ s, x ∉ chars := fun x hx => h x (by simp [hx])
    have h0 := len_nonneg s
    rw [List.cons_append, IndexAny_cons, ih hs, len_cons, if_neg hb]
    split_ifs <;> omega

theorem sliceFrom_eq {u s t : GoString} {i : Int} (hu : u = s ++ t) (hi : i = len s) :
    sliceFrom u i = some t := by
  subst hu hi
  have h0 := len_nonneg s
  have h1 := len_nonneg t
  have h2 : 0 ≤ len s ∧ len s ≤ len (s ++ t) := by rw [len_append]; omega
  simp only [sliceFrom, h2, and_self, if_true]
  simp [len]

theorem slice_eq {u s m t : GoString} {lo hi : Int} (hu : u = s ++ m ++ t)
    (hlo : lo = len s) (hhi : hi = len s + len m) : slice u lo hi = some m := by
  subst hu hlo hhi
  have h0 := len_nonneg s
  have h1 := len_nonneg m
  have h2 := len_nonneg t
  have h3 : 0 ≤ len s ∧ len s ≤ len s + len m ∧ len s + len m ≤ len (s ++ m ++ t) := by
    rw [len_append, len_append]; omega
  simp only [slice, h3, and_self, if_true]
  have h4 : (len s + len m).toNat = (s ++ m).length := by simp [len]; omega
  rw [h4, List.take_left]
  simp [len]

/-! ## The branches of `pathFromUrl` -/

/-- An input without a colon is returned as it is. -/
theorem pathFromUrl_no_colon {url : GoString} (hne : url ≠ [])
    (h : ':'.toUInt8 ∉ url) : pathFromUrl url = some url := by
  simp [pathFromUrl, hne, IndexByte_not_mem h]

/-- An input with fewer than two bytes after its first colon is returned as it is. -/
theorem pathFromUrl_short {pre t : GoString} (h : ':'.toUInt8 ∉ pre) (ht : t.length < 2) :
    pathFromUrl (pre ++ ':'.toUInt8 :: t) = some (pre ++ ':'.toUInt8 :: t) := by
  have h0 := len_nonneg pre
  have h1 : ¬ (len pre < 0) := by omega
  have h2 : len (pre ++ ':'.toUInt8 :: t) - len pre < 3 := by
    rw [len_append, len_cons]; unfold len; omega
  simp only [pathFromUrl, IndexByte_append_cons t h, h1, h2, if_true, if_false]
  simp

/-- The scheme branch, when no slash follows the three skipped bytes. -/
theorem pathFromUrl_no_slash {pre mid : GoString} (x y : UInt8) (h : ':'.toUInt8 ∉ pre)
    (hm : '/'.toUInt8 ∉ mid) :
    pathFromUrl (pre ++ ':'.toUInt8 :: x :: y :: mid) = some (str "/") := by
  have h0 := len_nonneg pre
  have hmid := len_nonneg mid
  have h1 : ¬ (len pre < 0) := by omega
  have h2 : ¬ (len (pre ++ ':'.toUInt8 :: x :: y :: mid) - len pre < 3) := by
    rw [len_append, len_cons, len_cons, len_cons]; omega
  have h3 : sliceFrom (pre ++ ':'.toUInt8 :: x :: y :: mid) (len pre + 3) = some mid := by
    apply sliceFrom_eq (s := pre ++ [':'.toUInt8, x, y])
    · simp
    · rw [len_append]; simp [len]
  simp only [pathFromUrl, IndexByte_append_cons _ h, h1, h2, h3, if_false, Option.bind,
    IndexByte_not_mem hm]
  simp

/-- The scheme branch, when a slash follows: the result runs from the first slash
after the three skipped bytes up to the first of `?`, `#`, `;` behind that slash. -/
theorem pathFromUrl_path {pre auth p rest : GoString} (x y : UInt8)
    (h : ':'.toUInt8 ∉ pre) (ha : '/'.toUInt8 ∉ auth)
    (hp : ∀ b ∈ p, b ∉ str "?#;")
    (hr : rest = [] ∨ ∃ d r, rest = d :: r ∧ d ∈ str "?#;") :
    pathFromUrl (pre ++ ':'.toUInt8 :: x :: y :: (auth ++ '/'.toUInt8 :: (p ++ rest)))
      = some ('/'.toUInt8 :: p) := by
  have h0 := len_nonneg pre
  have h0a := len_nonneg auth
  have h0p := len_nonneg p
  have h1 : ¬ (len pre < 0) := by omega
  have h2 : ¬ (len (pre ++ ':'.toUInt8 :: x :: y :: (auth ++ '/'.toUInt8 :: (p ++ rest)))
      - len pre < 3) := by
    have := len_nonneg (auth ++ '/'.toUInt8 :: (p ++ rest))
    rw [len_append, len_cons, len_cons, len_cons]; omega
  have h3 : sliceFrom (pre ++ ':'.toUInt8 :: x :: y :: (auth ++ '/'.toUInt8 :: (p ++ rest)))
      (len pre + 3) = some (auth ++ '/'.toUInt8 :: (p ++ rest)) := by
    apply sliceFrom_eq (s := pre ++ [':'.toUInt8, x, y])
    · simp
    · rw [len_append]; simp [len]
  have h4 : ¬ (len auth < 0) := by omega
  have h5 : sliceFrom (pre ++ ':'.toUInt8 :: x :: y :: (auth ++ '/'.toUInt8 :: (p ++ rest)))
      (len auth + (len pre + 3) + 1) = some (p ++ rest) := by
    apply sliceFrom_eq (s := pre ++ [':'.toUInt8, x, y] ++ auth ++ ['/'.toUInt8])
    · simp
    · simp only [len_append]; simp [len]; omega
  simp only [pathFromUrl, IndexByte_append_cons _ h, h1, h2, h3, if_false, Option.bind,
    IndexByte_append_cons _ ha, h4, h5]
  rcases hr with rfl | ⟨d, r, rfl, hd⟩
  · have h6 : IndexAny (p ++ []) (str "?#;") = -1 := by
      rw [List.append_nil]; exact IndexAny_none hp
    simp only [h6]
    have h7 : sliceFrom (pre ++ ':'.toUInt8 :: x :: y :: (auth ++ '/'.toUInt8 :: (p ++ [])))
        (len auth + (len pre + 3)) = some ('/'.toUInt8 :: p) := by
      apply sliceFrom_eq (s := pre ++ [':'.toUInt8, x, y] ++ auth)
      · simp
      · simp only [len_append]; simp [len]; omega
    simpa using h7
  · have h6 : IndexAny (p ++ d :: r) (str "?#;") = len p := IndexAny_append_cons r hp hd
    simp only [h6]
    have h7 : slice (pre ++ ':'.toUInt8 :: x :: y :: (auth ++ '/'.toUInt8 :: (p ++ d :: r)))
        (len auth + (len pre + 3)) (len p + (len auth + (len pre + 3) + 1))
        = some ('/'.toUInt8 :: p) := by
      apply slice_eq (s := pre ++ [':'.toUInt8, x, y] ++ auth) (t := d :: r)
      · simp
      · simp only [len_append]; simp [len]; omega
      · simp only [len_append, len_cons]; simp [len]; omega
    have h8 : ¬ (len p < 0) := by omega
    simpa [h8] using h7

theorem sliceFrom_some {u t : GoString} {i : Int} (h : sliceFrom u i = some t) :
    0 ≤ i ∧ i ≤ len u ∧ len t = len u - i := by
  unfold sliceFrom at h
  split_ifs at h with hb
  have ht : t = u.drop i.toNat := by simpa using h.symm
  refine ⟨hb.1, hb.2, ?_⟩
  have h1 := hb.1
  have h2 := hb.2
  subst ht
  unfold len at *
  rw [List.length_drop]
  omega

theorem str_scheme_sep : str "://" = [':'.toUInt8, '/'.toUInt8, '/'.toUInt8] := by decide

theorem str_slash : str "/" = ['/'.toUInt8] := by decide

theorem slash_not_delim : '/'.toUInt8 ∉ str "?#;" := by decide

/-- The five ways an input is handled by `pathFromUrl`, by the shape of the input. -/
theorem pathFromUrl_cases (url : GoString) :
    (url = [] ∧ pathFromUrl url = some (str "/")) ∨
    (url ≠ [] ∧ ':'.toUInt8 ∉ url ∧ pathFromUrl url = some url) ∨
    (∃ pre t, url = pre ++ ':'.toUInt8 :: t ∧ ':'.toUInt8 ∉ pre ∧ t.length < 2 ∧
      pathFromUrl url = some url) ∨
    (∃ pre x y mid, url = pre ++ ':'.toUInt8 :: x :: y :: mid ∧ ':'.toUInt8 ∉ pre ∧
      '/'.toUInt8 ∉ mid ∧ pathFromUrl url = some (str "/")) ∨
    (∃ pre x y auth p rest,
      url = pre ++ ':'.toUInt8 :: x :: y :: (auth ++ '/'.toUInt8 :: (p ++ rest)) ∧
      ':'.toUInt8 ∉ pre ∧ '/'.toUInt8 ∉ auth ∧ (∀ b ∈ p, b ∉ str "?#;") ∧
      (rest = [] ∨ ∃ d r, rest = d :: r ∧ d ∈ str "?#;") ∧
      pathFromUrl url = some ('/'.toUInt8 :: p)) := by
  by_cases hne : url = []
  · left; exact ⟨hne, by rw [hne]; rfl⟩
  by_cases hc : ':'.toUInt8 ∈ url
  swap
  · right; left; exact ⟨hne, hc, pathFromUrl_no_colon hne hc⟩
  obtain ⟨pre, t, rfl, hpre⟩ := split_first hc
  match t with
  | [] => right; right; left; exact ⟨pre, [], rfl, hpre, by simp, pathFromUrl_short hpre (by simp)⟩
  | [x] =>
    right; right; left; exact ⟨pre, [x], rfl, hpre, by simp, pathFromUrl_short hpre (by simp)⟩
  | x :: y :: mid =>
    right; right; right
    by_cases hs : '/'.toUInt8 ∈ mid
    swap
    · left; exact ⟨pre, x, y, mid, rfl, hpre, hs, pathFromUrl_no_slash x y hpre hs⟩
    obtain ⟨auth, q, rfl, hauth⟩ := split_first hs
    obtain ⟨p, rest, rfl, hp, hr⟩ := split_any (str "?#;") q
    right
    exact ⟨pre, x, y, auth, p, rest, rfl, hpre, hauth, hp, hr,
      pathFromUrl_path x y hpre hauth hp hr⟩

/-- No input makes a slice of `pathFromUrl` panic. -/
theorem pathFromUrl_isSome (url : GoString) : ∃ r, pathFromUrl url = some r := by
  rcases pathFromUrl_cases url with h | h | h | h | h
  · exact ⟨_, h.2⟩
  · exact ⟨_, h.2.2⟩
  · obtain ⟨_, _, _, _, _, h⟩ := h; exact ⟨_, h⟩
  · obtain ⟨_, _, _, _, _, _, _, h⟩ := h; exact ⟨_, h⟩
  · obtain ⟨_, _, _, _, _, _, _, _, _, _, _, h⟩ := h; exact ⟨_, h⟩

/-! ## Claims on `pathFromUrl` -/

/-- C1: for an input `scheme ++ "://" ++ authority ++ path ++ rest`, where `scheme`
has no `:`, `authority` has no `/`, `path` starts with `/` and has none of `?`, `#`,
`;`, and `rest` is empty or starts with one of `?`, `#`, `;`, `pathFromUrl` returns
exactly `path`. -/
theorem pathFromUrl_absolute_url (scheme authority path rest : GoString)
    (hs : ':'.toUInt8 ∉ scheme) (ha : '/'.toUInt8 ∉ authority)
    (hp1 : path.head? = some '/'.toUInt8) (hp2 : ∀ b ∈ path, b ∉ str "?#;")
    (hr : rest = [] ∨ ∃ d, rest.head? = some d ∧ d ∈ str "?#;") :
    pathFromUrl (scheme ++ str "://" ++ authority ++ path ++ rest) = some path := by
  match path, hp1, hp2 with
  | c :: p, hp1, hp2 =>
    have hc : c = '/'.toUInt8 := by simpa using hp1
    subst hc
    have hp : ∀ b ∈ p, b ∉ str "?#;" := fun b hb => hp2 b (by simp [hb])
    have hr2 : rest = [] ∨ ∃ d r, rest = d :: r ∧ d ∈ str "?#;" := by
      rcases hr with h | ⟨d, hd, hd2⟩
      · exact Or.inl h
      · match rest, hd with
        | e :: r, hd =>
          have he : e = d := by simpa using hd
          exact Or.inr ⟨d, r, by rw [he], hd2⟩
    have h := pathFromUrl_path '/'.toUInt8 '/'.toUInt8 hs ha hp hr2
    rw [str_scheme_sep]
    simpa using h

/-- Witness of C1 at `http://host/foo/bar?x=1`. -/
theorem pathFromUrl_absolute_url_witness :
    pathFromUrl (str "http" ++ str "://" ++ str "host" ++ str "/foo/bar" ++ str "?x=1")
      = some (str "/foo/bar") :=
  pathFromUrl_absolute_url (str "http") (str "host") (str "/foo/bar") (str "?x=1")
    (by decide) (by decide) (by decide) (by decide) (Or.inr ⟨'?'.toUInt8, by decide, by decide⟩)

/-- C2, as stated, fails: a relative input that carries a query string is returned
with the query string. -/
theorem pathFromUrl_relative_keeps_query :
    pathFromUrl (str "/foo?x=1") = some (str "/foo?x=1") ∧
      ¬ (∀ b ∈ str "/foo?x=1", b ∉ str "?#;") := by
  decide

/-- C2, amended: an input with at least two bytes after its first `:` yields a result
with none of `?`, `#`, `;`; every other non-empty input is returned as it is (with the
delimiters it has). -/
theorem pathFromUrl_strips_in_scheme_branch (url : GoString) :
    (∀ pre x y mid, url = pre ++ ':'.toUInt8 :: x :: y :: mid → ':'.toUInt8 ∉ pre →
      ∃ r, pathFromUrl url = some r ∧ ∀ b ∈ r, b ∉ str "?#;") ∧
    (url ≠ [] → (∀ pre x y mid, ':'.toUInt8 ∉ pre → url ≠ pre ++ ':'.toUInt8 :: x :: y :: mid) →
      pathFromUrl url = some url) := by
  constructor
  · rintro pre x y mid rfl hpre
    by_cases hs : '/'.toUInt8 ∈ mid
    · obtain ⟨auth, q, rfl, hauth⟩ := split_first hs
      obtain ⟨p, rest, rfl, hp, hr⟩ := split_any (str "?#;") q
      refine ⟨_, pathFromUrl_path x y hpre hauth hp hr, ?_⟩
      intro b hb
      rcases List.mem_cons.mp hb with e | e
      · rw [e]; exact slash_not_delim
      · exact hp b e
    · exact ⟨_, pathFromUrl_no_slash x y hpre hs, by decide⟩
  · intro hne hno
    rcases pathFromUrl_cases url with h | h | h | h | h
    · exact absurd h.1 hne
    · exact h.2.2
    · obtain ⟨_, _, _, _, _, h⟩ := h; exact h
    · obtain ⟨pre, x, y, mid, hu, hpre, _⟩ := h
      exact absurd hu (hno pre x y mid hpre)
    · obtain ⟨pre, x, y, auth, p, rest, hu, hpre, _⟩ := h
      exact absurd hu (hno pre x y _ hpre)

/-- Witness of the amended C2 at `http://h/a?b`. -/
theorem pathFromUrl_strips_in_scheme_branch_witness :
    ∃ r, pathFromUrl (str "http://h/a?b") = some r ∧ ∀ b ∈ r, b ∉ str "?#;" :=
  (pathFromUrl_strips_in_scheme_branch (str "http://h/a?b")).1
    (str "http") '/'.toUInt8 '/'.toUInt8 (str "h/a?b") (by decide) (by decide)

/-- C3, as stated, fails: `a:bc` has two bytes (fewer than three) after its first
`:`, and is mapped to `/`, not to itself. -/
theorem pathFromUrl_two_after_colon :
    ':'.toUInt8 ∉ str "a" ∧ (str "bc").length < 3 ∧
      pathFromUrl (str "a" ++ ':'.toUInt8 :: str "bc") = some (str "/") ∧
      pathFromUrl (str "a" ++ ':'.toUInt8 :: str "bc") ≠ some (str "a" ++ ':'.toUInt8 :: str "bc") := by
  decide

/-- C3, amended: an input with fewer than two bytes after its first `:` (fewer than
three counting the `:` itself) is returned unchanged. -/
theorem pathFromUrl_short_after_colon (pre t : GoString) (h : ':'.toUInt8 ∉ pre)
    (ht : t.length < 2) :
    pathFromUrl (pre ++ ':'.toUInt8 :: t) = some (pre ++ ':'.toUInt8 :: t) :=
  pathFromUrl_short h ht

/-- Witness of the amended C3 at `a:b`. -/
theorem pathFromUrl_short_after_colon_witness :
    pathFromUrl (str "a" ++ ':'.toUInt8 :: str "b") = some (str "a:b") :=
  pathFromUrl_short_after_colon (str "a") (str "b") (by decide) (by decide)

/-- C4: `pathFromUrl` returns a string for every input (no slice panics), and every
index it computes is within bounds: `protoEnd + 3 ≤ len url` in the scheme branch,
`pathBegin + 1 ≤ len url`, and `pathBegin ≤ pathEnd ≤ len url`. -/
theorem pathFromUrl_total (url : GoString) :
    (∃ r, pathFromUrl url = some r) ∧
    (∀ protoEnd, protoEnd = IndexByte url ':'.toUInt8 → 0 ≤ protoEnd →
      ¬ (len url - protoEnd < 3) →
      protoEnd + 3 ≤ len url ∧
      ∀ afterProto, sliceFrom url (protoEnd + 3) = some afterProto →
        ∀ pathBegin, pathBegin = IndexByte afterProto '/'.toUInt8 + (protoEnd + 3) →
          0 ≤ IndexByte afterProto '/'.toUInt8 →
          pathBegin + 1 ≤ len url ∧
          ∀ afterSlash, sliceFrom url (pathBegin + 1) = some afterSlash →
            ∀ pathEnd, pathEnd = IndexAny afterSlash (str "?#;") + (pathBegin + 1) →
              0 ≤ IndexAny afterSlash (str "?#;") →
              0 ≤ pathBegin ∧ pathBegin ≤ pathEnd ∧ pathEnd ≤ len url) := by
  constructor
  · exact pathFromUrl_isSome url
  · intro protoEnd _ h0 h3
    refine ⟨by omega, ?_⟩
    intro afterProto hs pathBegin hpb hge
    obtain ⟨_, _, hl⟩ := sliceFrom_some hs
    have hlt := IndexByte_lt_len afterProto '/'.toUInt8
    refine ⟨by omega, ?_⟩
    intro afterSlash hs2 pathEnd hpe hge2
    obtain ⟨_, _, hl2⟩ := sliceFrom_some hs2
    have hlt2 := IndexAny_lt_len afterSlash (str "?#;")
    omega

/-- Witness of C4 at `http://host/foo?x=1`: `protoEnd = 4`, `pathBegin = 11`,
`pathEnd = 15`, and the length is `19`. -/
theorem pathFromUrl_total_witness :
    pathFromUrl (str "http://host/foo?x=1") = some (str "/foo") ∧
      (4 : Int) + 3 ≤ len (str "http://host/foo?x=1") ∧
      (11 : Int) + 1 ≤ len (str "http://host/foo?x=1") ∧
      (0 : Int) ≤ 11 ∧ (11 : Int) ≤ 15 ∧ (15 : Int) ≤ len (str "http://host/foo?x=1") := by
  have h := (pathFromUrl_total (str "http://host/foo?x=1")).2 4 (by decide) (by decide)
    (by decide)
  have h2 := h.2 (str "host/foo?x=1") (by decide) 11 (by decide) (by decide)
  have h3 := h2.2 (str "foo?x=1") (by decide) 15 (by decide) (by decide)
  exact ⟨by decide, h.1, h2.1, h3⟩

/-- C6: a non-empty input without a `:` is returned unchanged. -/
theorem pathFromUrl_without_colon (s : GoString) (hne : s ≠ []) (h : ':'.toUInt8 ∉ s) :
    pathFromUrl s = some s :=
  pathFromUrl_no_colon hne h

/-- Witness of C6 at `/foo/bar`. -/
theorem pathFromUrl_without_colon_witness :
    pathFromUrl (str "/foo/bar") = some (str "/foo/bar") :=
  pathFromUrl_without_colon (str "/foo/bar") (by decide) (by decide)

/-- C7: an input `scheme ++ "://" ++ authority`, where `scheme` has no `:` and
`authority` has no `/`, is mapped to `/`. -/
theorem pathFromUrl_no_path (scheme authority : GoString)
    (hs : ':'.toUInt8 ∉ scheme) (ha : '/'.toUInt8 ∉ authority) :
    pathFromUrl (scheme ++ str "://" ++ authority) = some (str "/") := by
  have h := pathFromUrl_no_slash '/'.toUInt8 '/'.toUInt8 hs ha
  rw [str_scheme_sep]
  simpa using h

/-- Witness of C7 at `http://host`. -/
theorem pathFromUrl_no_path_witness :
    pathFromUrl (str "http" ++ str "://" ++ str "host") = some (str "/") :=
  pathFromUrl_no_path (str "http") (str "host") (by decide) (by decide)

/-! ## Claims on `LogEntry` -/

/-- Every setter call merges its tags into the identifier and changes nothing else. -/
theorem Setter.apply_eq (s : Setter) (entry : LogEntry) :
    s.apply entry =
      { entry with id := { entry.id with tags := mergeTags entry.id.tags s.extra } } := by
  cases s with
  | statusCode code =>
    simp only [Setter.apply, LogEntry.SetStatusCode, Id.WithTag, Setter.extra, mapLit,
      LogEntry.mk.injEq, Id.mk.injEq, true_and]
    funext k
    by_cases h : k = str "http.status" <;> simp [mergeTags, h]
  | success => rfl
  | error err => rfl
  | attempt n final => rfl

theorem Setter.extra_some_keys {s : Setter} {k v : GoString} (h : s.extra k = some v) :
    k ∈ s.keys := by
  cases s <;> simp only [Setter.extra, mapLit] at h <;> simp only [Setter.keys] <;>
    split_ifs at h <;> simp_all

theorem Setter.keys_disjoint {a b : Setter} (hk : a.kind ≠ b.kind)
    (hs : a.sameKeys b = false) : ∀ k ∈ a.keys, k ∉ b.keys := by
  cases a <;> cases b <;>
    first
    | exact absurd rfl hk
    | (simp [Setter.sameKeys, Setter.kind] at hs; done)
    | (simp only [Setter.keys]; decide)

/-- C5, as stated, fails: `SetSuccess` and `SetError` are different setters that
write the same two keys, so the later call wins and the two orders differ. -/
theorem SetSuccess_SetError_order :
    (Setter.success).kind ≠ (Setter.error (str "timeout")).kind ∧
    ((Setter.error (str "timeout")).apply ((Setter.success).apply sampleEntry)).id.tags
        (str "ipc.result") = some (str "failure") ∧
    ((Setter.success).apply ((Setter.error (str "timeout")).apply sampleEntry)).id.tags
        (str "ipc.result") = some (str "success") ∧
    ((Setter.error (str "timeout")).apply ((Setter.success).apply sampleEntry)).id.tags
      ≠ ((Setter.success).apply ((Setter.error (str "timeout")).apply sampleEntry)).id.tags := by
  refine ⟨by decide, by decide, by decide, ?_⟩
  intro h
  have h2 := congrFun h (str "ipc.result")
  revert h2
  decide

/-- C5, amended: two different setters other than the pair `SetSuccess`/`SetError`,
with any arguments, give the same entry (so the same tag set) in either order. -/
theorem setters_commute (a b : Setter) (entry : LogEntry) (hk : a.kind ≠ b.kind)
    (hs : a.sameKeys b = false) :
    b.apply (a.apply entry) = a.apply (b.apply entry) := by
  rw [Setter.apply_eq b, Setter.apply_eq a, Setter.apply_eq a, Setter.apply_eq b]
  simp only [LogEntry.mk.injEq, Id.mk.injEq, true_and]
  funext k
  simp only [mergeTags]
  cases ha : a.extra k with
  | none => cases hb : b.extra k <;> rfl
  | some v =>
    cases hb : b.extra k with
    | none => rfl
    | some w =>
      exact absurd (Setter.extra_some_keys hb)
        (Setter.keys_disjoint hk hs k (Setter.extra_some_keys ha))

/-- Witness of the amended C5: `SetStatusCode(200)` and `SetAttempt(0, true)`. -/
theorem setters_commute_witness :
    (Setter.attempt 0 true).apply ((Setter.statusCode 200).apply sampleEntry)
      = (Setter.statusCode 200).apply ((Setter.attempt 0 true).apply sampleEntry) :=
  setters_commute (Setter.statusCode 200) (Setter.attempt 0 true) sampleEntry
    (by decide) (by decide)

/-- C8: `NewLogEntry` returns an entry named `ipc.client.call` whose tag map is
exactly `owner: spectator-go`, `ipc.endpoint: pathFromUrl(url)`, `http.method: method`,
`http.status: -1` (no other key), and whose start is the reading of the registry's
clock at creation. -/
theorem NewLogEntry_initial (registry : Registry) (method url : GoString) :
    ∃ entry endpoint, NewLogEntry registry method url = some entry ∧
      pathFromUrl url = some endpoint ∧
      entry.id.name = str "ipc.client.call" ∧
      entry.id.tags (str "owner") = some (str "spectator-go") ∧
      entry.id.tags (str "ipc.endpoint") = some endpoint ∧
      entry.id.tags (str "http.method") = some method ∧
      entry.id.tags (str "http.status") = some (str "-1") ∧
      (∀ k, k ∉ [str "owner", str "ipc.endpoint", str "http.method", str "http.status"] →
        entry.id.tags k = none) ∧
      entry.start = registry.clockNanos ∧
      entry.registry = registry.ptr := by
  obtain ⟨endpoint, he⟩ := pathFromUrl_isSome url
  refine ⟨_, endpoint, by rw [NewLogEntry, he]; rfl, he, rfl, ?_, ?_, ?_, ?_, ?_, rfl, rfl⟩
  · simp [Registry.NewId, mapLit]
  · have h1 : str "ipc.endpoint" ≠ str "owner" := by decide
    simp [Registry.NewId, mapLit, h1]
  · have h1 : str "http.method" ≠ str "owner" := by decide
    have h2 : str "http.method" ≠ str "ipc.endpoint" := by decide
    simp [Registry.NewId, mapLit, h1, h2]
  · have h1 : str "http.status" ≠ str "owner" := by decide
    have h2 : str "http.status" ≠ str "ipc.endpoint" := by decide
    have h3 : str "http.status" ≠ str "http.method" := by decide
    simp [Registry.NewId, mapLit, h1, h2, h3]
  · intro k hk
    simp only [List.mem_cons, List.mem_singleton, List.not_mem_nil, or_false, not_or] at hk
    simp [Registry.NewId, mapLit, hk.1, hk.2.1, hk.2.2.1, hk.2.2.2]

/-- Witness of C8: `GET http://x/a/b` at clock reading 5 has the endpoint `/a/b`,
and no tag `ipc.result`. -/
theorem NewLogEntry_initial_witness :
    ∃ entry, NewLogEntry ⟨0, 5, []⟩ (str "GET") (str "http://x/a/b") = some entry ∧
      entry.id.tags (str "ipc.endpoint") = some (str "/a/b") ∧
      entry.id.tags (str "ipc.result") = none ∧ entry.start = 5 := by
  obtain ⟨entry, endpoint, h1, h2, _, _, h5, _, _, h8, h9, _⟩ :=
    NewLogEntry_initial ⟨0, 5, []⟩ (str "GET") (str "http://x/a/b")
  have h3 : pathFromUrl (str "http://x/a/b") = some (str "/a/b") := by decide
  rw [h3] at h2
  have h4 : endpoint = str "/a/b" := (Option.some.inj h2).symm
  exact ⟨entry, h1, by rw [h5, h4], h8 _ (by decide), h9⟩

/-- C9: after `SetAttempt(n, final)` the tag `ipc.attempt` is `initial` for `n = 0`,
`second` for `n = 1` and `third_up` for every other `n` (negative ones included), the
tag `ipc.attempt.final` is `true` or `false` as `final` is, and every other tag, the
name, the start and the registry are unchanged. -/
theorem SetAttempt_tags (entry : LogEntry) (n : Int) (final : Bool) :
    (n = 0 → (entry.SetAttempt n final).id.tags (str "ipc.attempt") = some (str "initial")) ∧
    (n = 1 → (entry.SetAttempt n final).id.tags (str "ipc.attempt") = some (str "second")) ∧
    (n ≠ 0 → n ≠ 1 →
      (entry.SetAttempt n final).id.tags (str "ipc.attempt") = some (str "third_up")) ∧
    (final = true →
      (entry.SetAttempt n final).id.tags (str "ipc.attempt.final") = some (str "true")) ∧
    (final = false →
      (entry.SetAttempt n final).id.tags (str "ipc.attempt.final") = some (str "false")) ∧
    (∀ k, k ≠ str "ipc.attempt" → k ≠ str "ipc.attempt.final" →
      (entry.SetAttempt n final).id.tags k = entry.id.tags k) ∧
    (entry.SetAttempt n final).id.name = entry.id.name ∧
    (entry.SetAttempt n final).start = entry.start ∧
    (entry.SetAttempt n final).registry = entry.registry := by
  have hne : str "ipc.attempt.final" ≠ str "ipc.attempt" := by decide
  refine ⟨?_, ?_, ?_, ?_, ?_, ?_, rfl, rfl, rfl⟩
  · intro h
    simp [LogEntry.SetAttempt, Id.WithTags, mergeTags, mapLit, attempt, h]
  · intro h
    simp [LogEntry.SetAttempt, Id.WithTags, mergeTags, mapLit, attempt, h]
  · intro h0 h1
    simp [LogEntry.SetAttempt, Id.WithTags, mergeTags, mapLit, attempt, h0, h1]
  · intro h
    simp [LogEntry.SetAttempt, Id.WithTags, mergeTags, mapLit, FormatBool, h, hne]
  · intro h
    simp [LogEntry.SetAttempt, Id.WithTags, mergeTags, mapLit, FormatBool, h, hne]
  · intro k h1 h2
    simp [LogEntry.SetAttempt, Id.WithTags, mergeTags, mapLit, h1, h2]

/-- Witness of C9: `SetAttempt(-1, false)` on the sample entry. -/
theorem SetAttempt_tags_witness :
    (sampleEntry.SetAttempt (-1) false).id.tags (str "ipc.attempt") = some (str "third_up") ∧
    (sampleEntry.SetAttempt (-1) false).id.tags (str "ipc.attempt.final") = some (str "false") ∧
    (sampleEntry.SetAttempt (-1) false).id.tags (str "http.method") = some (str "GET") := by
  have h := SetAttempt_tags sampleEntry (-1) false
  refine ⟨h.2.2.1 (by decide) (by decide), h.2.2.2.2.1 rfl, ?_⟩
  rw [h.2.2.2.2.2.1 _ (by decide) (by decide)]
  decide

/-- C10, as stated, fails: `int64` subtraction wraps.  For an entry started at the
clock reading `-2^63` and logged at the reading `0` (a monotonic clock), the duration
passed to `IpcTimerRecord` is `-2^63`: it is negative and is not `now - start`. -/
theorem Log_duration_wraps :
    isInt64 (-9223372036854775808) ∧ isInt64 0 ∧ (-9223372036854775808 : Int) ≤ 0 ∧
    (((LogEntry.mk 0 (-9223372036854775808) sampleEntry.id).Log ⟨0, 0, []⟩).2.timerCalls.map
      TimerCall.duration) = [-9223372036854775808] ∧
    ¬ ((0 : Int) ≤ -9223372036854775808) ∧
    (-9223372036854775808 : Int) ≠ 0 - (-9223372036854775808) := by
  decide

/-- C10, amended: `Log` makes exactly one call to `IpcTimerRecord`, with the entry's
current identifier and the duration `now - start` in wrapping `int64` arithmetic; when
`start ≤ now` and `now - start` fits in `int64` (in particular when `0 ≤ start`) that
duration equals `now - start` and is not negative; `Log` leaves the entry as it is, so
a second `Log` emits the same identifier again. -/
theorem Log_records_once (entry : LogEntry) (r r2 : Registry) :
    (entry.Log r).2.timerCalls = r.timerCalls ++
      [{ registry := r.ptr, id := entry.id,
         duration := wrapInt64 (r.clockNanos - entry.start) }] ∧
    (entry.start ≤ r.clockNanos → r.clockNanos - entry.start < 2 ^ 63 →
      wrapInt64 (r.clockNanos - entry.start) = r.clockNanos - entry.start ∧
      0 ≤ wrapInt64 (r.clockNanos - entry.start)) ∧
    (isInt64 entry.start → isInt64 r.clockNanos → 0 ≤ entry.start →
      entry.start ≤ r.clockNanos → r.clockNanos - entry.start < 2 ^ 63) ∧
    (entry.Log r).1 = entry ∧
    (entry.Log r).2.clockNanos = r.clockNanos ∧
    (entry.Log r).2.ptr = r.ptr ∧
    ((entry.Log r).1.Log r2).2.timerCalls = r2.timerCalls ++
      [{ registry := r2.ptr, id := entry.id,
         duration := wrapInt64 (r2.clockNanos - entry.start) }] := by
  refine ⟨rfl, ?_, ?_, rfl, rfl, rfl, rfl⟩
  · intro h1 h2
    unfold wrapInt64
    omega
  · intro h1 h2 h3 h4
    unfold isInt64 at h1 h2
    omega

/-- Witness of the amended C10: started at 5, logged at 12 and again at 20. -/
theorem Log_records_once_witness :
    ((sampleEntry.Log ⟨0, 12, []⟩).2.timerCalls.map TimerCall.duration) = [7] ∧
    wrapInt64 (12 - 5) = 12 - 5 ∧ (0 : Int) ≤ wrapInt64 (12 - 5) ∧
    (((sampleEntry.Log ⟨0, 12, []⟩).1.Log ⟨0, 20, []⟩).2.timerCalls.map TimerCall.duration)
      = [15] := by
  have h := Log_records_once sampleEntry ⟨0, 12, []⟩ ⟨0, 20, []⟩
  have h2 := h.2.1 (by decide) (by decide)
  refine ⟨?_, h2.1, h2.2, ?_⟩
  · rw [h.1]; decide
  · rw [h.2.2.2.2.2.2]; decide

/-! ## Further claims on `pathFromUrl` -/

/-- A non-empty input that does not have two bytes after a first colon is returned
as it is. -/
theorem pathFromUrl_not_scheme {url : GoString} (hne : url ≠ [])
    (hno : ∀ pre x y mid, ':'.toUInt8 ∉ pre → url ≠ pre ++ ':'.toUInt8 :: x :: y :: mid) :
    pathFromUrl url = some url := by
  rcases pathFromUrl_cases url with h | h | h | h | h
  · exact absurd h.1 hne
  · exact h.2.2
  · obtain ⟨_, _, _, _, _, h⟩ := h; exact h
  · obtain ⟨pre, x, y, mid, hu, hpre, _⟩ := h
    exact absurd hu (hno pre x y mid hpre)
  · obtain ⟨pre, x, y, auth, p, rest, hu, hpre, _⟩ := h
    exact absurd hu (hno pre x y _ hpre)

/-- In the scheme branch the result is `/` or a slash followed by bytes of the input
that are none of `?`, `#`, `;`; it is cut out of the input behind the colon. -/
theorem pathFromUrl_scheme_result {pre mid : GoString} (x y : UInt8)
    (hpre : ':'.toUInt8 ∉ pre) :
    ∃ p, pathFromUrl (pre ++ ':'.toUInt8 :: x :: y :: mid) = some ('/'.toUInt8 :: p) ∧
      (∀ b ∈ p, b ∉ str "?#;") ∧
      (p = [] ∨ ∃ a c, pre ++ ':'.toUInt8 :: x :: y :: mid = a ++ ('/'.toUInt8 :: p) ++ c) := by
  by_cases hs : '/'.toUInt8 ∈ mid
  · obtain ⟨auth, q, rfl, hauth⟩ := split_first hs
    obtain ⟨p, rest, rfl, hp, hr⟩ := split_any (str "?#;") q
    refine ⟨p, pathFromUrl_path x y hpre hauth hp hr, hp, Or.inr ?_⟩
    exact ⟨pre ++ ':'.toUInt8 :: x :: y :: auth, rest, by simp⟩
  · refine ⟨[], ?_, by simp, Or.inl rfl⟩
    rw [pathFromUrl_no_slash x y hpre hs, str_slash]

/-- The lengths of `pathFromUrl` are byte counts: `a:é` has one character but two
bytes after its colon, so it is handled by the scheme branch and mapped to `/`; in
the same way the extracted path `/a:é` is cut down to `/`. -/
theorem pathFromUrl_counts_bytes :
    (str "é").length = 2 ∧ pathFromUrl (str "a:é") = some (str "/") ∧
      pathFromUrl (str "http://h/a:é") = some (str "/a:é") ∧
      pathFromUrl (str "/a:é") = some (str "/") := by
  decide

/-- C16: the empty input is mapped to `/`. -/
theorem pathFromUrl_empty : pathFromUrl (str "") = some (str "/") := by
  decide

/-- C17: for an input with at least two bytes after its first `:`, the result begins
with `/` and contains none of `?`, `#`, `;`. -/
theorem pathFromUrl_scheme_rooted (pre mid : GoString) (x y : UInt8)
    (hpre : ':'.toUInt8 ∉ pre) :
    ∃ r, pathFromUrl (pre ++ ':'.toUInt8 :: x :: y :: mid) = some r ∧
      r.head? = some '/'.toUInt8 ∧ ∀ b ∈ r, b ∉ str "?#;" := by
  obtain ⟨p, h, hp, _⟩ := @pathFromUrl_scheme_result pre mid x y hpre
  refine ⟨_, h, rfl, ?_⟩
  intro b hb
  rcases List.mem_cons.mp hb with e | e
  · rw [e]; exact slash_not_delim
  · exact hp b e

/-- Witness of C17 at `ab:cd/e;f`, an input whose colon is not followed by `//`. -/
theorem pathFromUrl_scheme_rooted_witness :
    ∃ r, pathFromUrl (str "ab:cd/e;f") = some r ∧
      r.head? = some '/'.toUInt8 ∧ ∀ b ∈ r, b ∉ str "?#;" :=
  pathFromUrl_scheme_rooted (str "ab") (str "/e;f") 'c'.toUInt8 'd'.toUInt8 (by decide)

/-- C18, as stated, fails: the path extracted from `http://h/a:bc` is `/a:bc`, and
the extractor maps `/a:bc` to `/` (the colon of the path is read as the end of a
scheme). -/
theorem pathFromUrl_not_idempotent :
    pathFromUrl (str "http://h/a:bc") = some (str "/a:bc") ∧
      pathFromUrl (str "/a:bc") = some (str "/") ∧
      (pathFromUrl (str "http://h/a:bc")).bind pathFromUrl ≠ pathFromUrl (str "http://h/a:bc") := by
  decide

/-- C18, amended: when the extracted path has no two bytes after a first `:` (in
particular when it has no `:` at all), it is a fixed point of the extractor. -/
theorem pathFromUrl_idempotent_without_colon (url r : GoString)
    (h : pathFromUrl url = some r)
    (hno : ∀ pre x y mid, ':'.toUInt8 ∉ pre → r ≠ pre ++ ':'.toUInt8 :: x :: y :: mid) :
    pathFromUrl r = some r ∧ (pathFromUrl url).bind pathFromUrl = pathFromUrl url := by
  have hne : r ≠ [] := by
    rcases pathFromUrl_cases url with c | c | c | c | c
    · rw [c.2] at h; rw [← Option.some.inj h]; decide
    · rw [c.2.2] at h; rw [← Option.some.inj h]; exact c.1
    · obtain ⟨pre, t, hu, _, _, c⟩ := c
      rw [c] at h; rw [← Option.some.inj h, hu]; simp
    · obtain ⟨_, _, _, _, _, _, _, c⟩ := c
      rw [c] at h; rw [← Option.some.inj h]; decide
    · obtain ⟨_, _, _, _, _, _, _, _, _, _, _, c⟩ := c
      rw [c] at h; rw [← Option.some.inj h]; simp
  have hr := pathFromUrl_not_scheme hne hno
  exact ⟨hr, by rw [h]; exact hr⟩

/-- A string without a colon is not of the form of the scheme branch. -/
theorem no_colon_not_scheme {r : GoString} (h : ':'.toUInt8 ∉ r) :
    ∀ pre x y mid, ':'.toUInt8 ∉ pre → r ≠ pre ++ ':'.toUInt8 :: x :: y :: mid := by
  intro pre x y mid _ e
  apply h
  rw [e]
  simp

/-- Witness of the amended C18 at `http://host/foo/bar?x=1`. -/
theorem pathFromUrl_idempotent_without_colon_witness :
    pathFromUrl (str "/foo/bar") = some (str "/foo/bar") ∧
      (pathFromUrl (str "http://host/foo/bar?x=1")).bind pathFromUrl
        = pathFromUrl (str "http://host/foo/bar?x=1") :=
  pathFromUrl_idempotent_without_colon (str "http://host/foo/bar?x=1") (str "/foo/bar")
    (by decide) (no_colon_not_scheme (by decide))

/-- C20: for every input the result is non-empty, and is `/` or a contiguous
substring of the input. -/
theorem pathFromUrl_substring (url : GoString) :
    ∃ r, pathFromUrl url = some r ∧ r ≠ [] ∧
      (r = str "/" ∨ ∃ a c, url = a ++ r ++ c) := by
  rcases pathFromUrl_cases url with h | h | h | h | h
  · exact ⟨_, h.2, by decide, Or.inl rfl⟩
  · exact ⟨_, h.2.2, h.1, Or.inr ⟨[], [], by simp⟩⟩
  · obtain ⟨pre, t, hu, _, _, h⟩ := h
    exact ⟨_, h, by rw [hu]; simp, Or.inr ⟨[], [], by simp⟩⟩
  · obtain ⟨_, _, _, _, _, _, _, h⟩ := h
    exact ⟨_, h, by decide, Or.inl rfl⟩
  · obtain ⟨pre, x, y, auth, p, rest, hu, _, _, _, _, h⟩ := h
    refine ⟨_, h, by simp, Or.inr ⟨pre ++ ':'.toUInt8 :: x :: y :: auth, rest, ?_⟩⟩
    rw [hu]; simp

/-! ## Further claims on `LogEntry` -/

/-- Two calls of the same setter write the same keys. -/
theorem Setter.extra_none_same_kind {a b : Setter} (hk : a.kind = b.kind) {k : GoString}
    (h : b.extra k = none) : a.extra k = none := by
  cases a <;> cases b <;>
    first
    | (simp [Setter.kind] at hk; done)
    | (simp only [Setter.extra, mapLit] at h ⊢
       split_ifs at h ⊢
       all_goals simp_all)

/-- A second call of the same setter hides the first one. -/
theorem Setter.apply_same_kind (a b : Setter) (entry : LogEntry) (hk : a.kind = b.kind) :
    b.apply (a.apply entry) = b.apply entry := by
  rw [Setter.apply_eq b, Setter.apply_eq a, Setter.apply_eq b]
  simp only [LogEntry.mk.injEq, Id.mk.injEq, true_and]
  funext k
  simp only [mergeTags]
  cases hb : b.extra k with
  | none => simp [Setter.extra_none_same_kind hk hb]
  | some v => rfl

/-- C11: for each of `SetStatusCode`, `SetError` and `SetAttempt`, a call with one
argument followed by a call with another leaves the identifier (and the entry) that
the second call alone leaves: only the latest value is present, no key is added. -/
theorem setter_twice_keeps_latest (entry : LogEntry) :
    (∀ a b : Int, (entry.SetStatusCode a).SetStatusCode b = entry.SetStatusCode b) ∧
    (∀ a b : GoString, (entry.SetError a).SetError b = entry.SetError b) ∧
    (∀ (a b : Int) (fa fb : Bool),
      (entry.SetAttempt a fa).SetAttempt b fb = entry.SetAttempt b fb) ∧
    (∀ a b : Int, ((entry.SetStatusCode a).SetStatusCode b).id = (entry.SetStatusCode b).id) ∧
    (∀ a b : GoString, ((entry.SetError a).SetError b).id = (entry.SetError b).id) ∧
    (∀ (a b : Int) (fa fb : Bool),
      ((entry.SetAttempt a fa).SetAttempt b fb).id = (entry.SetAttempt b fb).id) := by
  have h1 : ∀ a b : Int, (entry.SetStatusCode a).SetStatusCode b = entry.SetStatusCode b :=
    fun a b => Setter.apply_same_kind (.statusCode a) (.statusCode b) entry rfl
  have h2 : ∀ a b : GoString, (entry.SetError a).SetError b = entry.SetError b :=
    fun a b => Setter.apply_same_kind (.error a) (.error b) entry rfl
  have h3 : ∀ (a b : Int) (fa fb : Bool),
      (entry.SetAttempt a fa).SetAttempt b fb = entry.SetAttempt b fb :=
    fun a b fa fb => Setter.apply_same_kind (.attempt a fa) (.attempt b fb) entry rfl
  exact ⟨h1, h2, h3, fun a b => by rw [h1], fun a b => by rw [h2],
    fun a b fa fb => by rw [h3]⟩

/-- A key bound by a map literal is one of its keys. -/
theorem mapLit_some_mem {kvs : List (GoString × GoString)} {k v : GoString}
    (h : mapLit kvs k = some v) : k ∈ kvs.map Prod.fst := by
  induction kvs with
  | nil => simp [mapLit] at h
  | cons kv rest ih =>
    obtain ⟨k0, v0⟩ := kv
    simp only [mapLit] at h
    by_cases e : k = k0
    · simp [e]
    · rw [if_neg e] at h
      simp [ih h]

/-- The entry `NewLogEntry` builds, given the extracted endpoint. -/
theorem NewLogEntry_eq {registry : Registry} {method url endpoint : GoString}
    (h : pathFromUrl url = some endpoint) :
    NewLogEntry registry method url = some
      { registry := registry.ptr, start := registry.clockNanos,
        id := { name := str "ipc.client.call",
                tags := mapLit [(str "owner", str "spectator-go"),
                  (str "ipc.endpoint", endpoint), (str "http.method", method),
                  (str "http.status", str "-1")] } } := by
  rw [NewLogEntry, h]; rfl

/-- Every setter writes keys of the fixed set only. -/
theorem Setter.keys_known (s : Setter) : ∀ k ∈ s.keys, k ∈ knownKeys := by
  cases s <;> simp only [Setter.keys] <;> decide

/-- A setter call keeps the name, the start and the registry of an entry. -/
theorem Setter.apply_frame (s : Setter) (entry : LogEntry) :
    (s.apply entry).id.name = entry.id.name ∧ (s.apply entry).start = entry.start ∧
      (s.apply entry).registry = entry.registry := by
  rw [Setter.apply_eq]; exact ⟨rfl, rfl, rfl⟩

/-- A setter call binds a key to what it writes, or else to what was bound before. -/
theorem Setter.apply_tags (s : Setter) (entry : LogEntry) (k : GoString) :
    (s.apply entry).id.tags k = mergeTags entry.id.tags s.extra k := by
  rw [Setter.apply_eq]

/-- A setter call never removes a key. -/
theorem Setter.apply_keeps_keys (s : Setter) (entry : LogEntry) (k : GoString)
    (h : entry.id.tags k ≠ none) : (s.apply entry).id.tags k ≠ none := by
  rw [Setter.apply_tags]
  simp only [mergeTags]
  cases s.extra k with
  | none => exact h
  | some v => simp

/-- A setter call does not touch a key it does not write. -/
theorem Setter.apply_other_key (s : Setter) (entry : LogEntry) (k : GoString)
    (h : k ∉ s.keys) : (s.apply entry).id.tags k = entry.id.tags k := by
  rw [Setter.apply_tags]
  simp only [mergeTags]
  cases he : s.extra k with
  | none => rfl
  | some v => exact absurd (Setter.extra_some_keys he) h

theorem applySetters_cons (s : Setter) (calls : List Setter) (entry : LogEntry) :
    applySetters (s :: calls) entry = applySetters calls (s.apply entry) := rfl

theorem applySetters_append (c1 c2 : List Setter) (entry : LogEntry) :
    applySetters (c1 ++ c2) entry = applySetters c2 (applySetters c1 entry) := by
  simp [applySetters, List.foldl_append]

/-- A sequence of setter calls keeps the name, the start and the registry. -/
theorem applySetters_frame (calls : List Setter) (entry : LogEntry) :
    (applySetters calls entry).id.name = entry.id.name ∧
      (applySetters calls entry).start = entry.start ∧
      (applySetters calls entry).registry = entry.registry := by
  induction calls generalizing entry with
  | nil => exact ⟨rfl, rfl, rfl⟩
  | cons s calls ih =>
    rw [applySetters_cons]
    obtain ⟨h1, h2, h3⟩ := ih (s.apply entry)
    obtain ⟨g1, g2, g3⟩ := Setter.apply_frame s entry
    exact ⟨h1.trans g1, h2.trans g2, h3.trans g3⟩

/-- A sequence of setter calls never removes a key. -/
theorem applySetters_keeps_keys (calls : List Setter) (entry : LogEntry) (k : GoString)
    (h : entry.id.tags k ≠ none) : (applySetters calls entry).id.tags k ≠ none := by
  induction calls generalizing entry with
  | nil => exact h
  | cons s calls ih =>
    rw [applySetters_cons]
    exact ih _ (Setter.apply_keeps_keys s entry k h)

/-- A sequence of setter calls does not touch a key that no setter writes. -/
theorem applySetters_other_key (calls : List Setter) (entry : LogEntry) (k : GoString)
    (h : ∀ s : Setter, k ∉ s.keys) :
    (applySetters calls entry).id.tags k = entry.id.tags k := by
  induction calls generalizing entry with
  | nil => rfl
  | cons s calls ih =>
    rw [applySetters_cons, ih, Setter.apply_other_key s entry k (h s)]

/-- A sequence of setter calls keeps the keys within the fixed set. -/
theorem applySetters_keys_known (calls : List Setter) (entry : LogEntry)
    (h : ∀ k v, entry.id.tags k = some v → k ∈ knownKeys) :
    ∀ k v, (applySetters calls entry).id.tags k = some v → k ∈ knownKeys := by
  induction calls generalizing entry with
  | nil => exact h
  | cons s calls ih =>
    rw [applySetters_cons]
    apply ih
    intro k v hkv
    rw [Setter.apply_tags] at hkv
    simp only [mergeTags] at hkv
    cases he : s.extra k with
    | none => rw [he] at hkv; exact h k v hkv
    | some w => exact Setter.keys_known s k (Setter.extra_some_keys he)

/-- C12: after `NewLogEntry` and any finite sequence of setter calls, every tag key
of the identifier belongs to the fixed set `owner`, `ipc.endpoint`, `http.method`,
`http.status`, `ipc.result`, `ipc.status`, `ipc.attempt`, `ipc.attempt.final`. -/
theorem tag_keys_known (registry : Registry) (method url : GoString) (calls : List Setter) :
    ∃ entry, NewLogEntry registry method url = some entry ∧
      ∀ k v, (applySetters calls entry).id.tags k = some v → k ∈ knownKeys := by
  obtain ⟨endpoint, he⟩ := pathFromUrl_isSome url
  refine ⟨_, NewLogEntry_eq he, ?_⟩
  apply applySetters_keys_known
  intro k v hkv
  have hm := mapLit_some_mem hkv
  simp only [List.map_cons, List.map_nil, List.mem_cons, List.mem_singleton,
    List.not_mem_nil, or_false] at hm
  simp only [knownKeys, List.mem_cons]
  rcases hm with e | e | e | e
  · exact Or.inl e
  · exact Or.inr (Or.inl e)
  · exact Or.inr (Or.inr (Or.inl e))
  · exact Or.inr (Or.inr (Or.inr (Or.inl e)))

/-- Witness of C12: after `SetError`, `SetAttempt` and `SetStatusCode` the key
`ipc.status` is present and belongs to the fixed set. -/
theorem tag_keys_known_witness :
    ∃ entry, NewLogEntry ⟨0, 5, []⟩ (str "GET") (str "http://x/a/b") = some entry ∧
      (applySetters [.error (str "timeout"), .attempt 2 true, .statusCode 503] entry).id.tags
        (str "ipc.status") = some (str "timeout") ∧
      str "ipc.status" ∈ knownKeys := by
  obtain ⟨entry, h1, h2⟩ := tag_keys_known ⟨0, 5, []⟩ (str "GET") (str "http://x/a/b")
    [.error (str "timeout"), .attempt 2 true, .statusCode 503]
  have h3 : (applySetters [.error (str "timeout"), .attempt 2 true, .statusCode 503]
      entry).id.tags (str "ipc.status") = some (str "timeout") := by
    have ha : ∀ e : LogEntry, (applySetters [.error (str "timeout"), .attempt 2 true,
        .statusCode 503] e).id.tags (str "ipc.status") = some (str "timeout") := by
      intro e
      have k1 : str "ipc.status" ≠ str "http.status" := by decide
      have k2 : str "ipc.status" ≠ str "ipc.attempt" := by decide
      have k3 : str "ipc.status" ≠ str "ipc.attempt.final" := by decide
      have k4 : str "ipc.status" ≠ str "ipc.result" := by decide
      simp [applySetters, Setter.apply_tags, mergeTags, Setter.extra, mapLit, k1, k2, k3, k4]
    exact ha entry
  exact ⟨entry, h1, h3, h2 _ _ h3⟩

/-! ### The decimal form of an integer -/

theorem digitValue_digitByte : ∀ d, d < 10 → digitValue (digitByte d) = some d := by
  decide

theorem digitByte_ne_minus : ∀ d, d < 10 → digitByte d ≠ '-'.toUInt8 := by
  decide

theorem parseDigits_append (acc : Nat) (s : GoString) (d : Nat) (hd : d < 10) :
    parseDigits acc (s ++ [digitByte d]) = (parseDigits acc s).map fun n => n * 10 + d := by
  induction s generalizing acc with
  | nil => simp [parseDigits, digitValue_digitByte d hd]
  | cons b s ih =>
    simp only [List.cons_append, parseDigits]
    cases digitValue b with
    | none => rfl
    | some v => simp only [Option.bind]; exact ih _

/-- Reading the digits of `n` gives `n` back. -/
theorem parseDigits_natDigits (fuel n : Nat) (h : n < fuel) :
    parseDigits 0 (natDigits fuel n) = some n := by
  induction fuel generalizing n with
  | zero => omega
  | succ fuel ih =>
    simp only [natDigits]
    split_ifs with h10
    · simp [parseDigits, digitValue_digitByte n h10]
    · rw [parseDigits_append 0 _ _ (Nat.mod_lt n (by omega)), ih (n / 10) (by omega)]
      simp only [Option.map]
      congr 1
      omega

/-- The digits of a number start with a digit. -/
theorem natDigits_head (fuel n : Nat) (h : n < fuel) :
    ∃ d s, d < 10 ∧ natDigits fuel n = digitByte d :: s := by
  induction fuel generalizing n with
  | zero => omega
  | succ fuel ih =>
    simp only [natDigits]
    split_ifs with h10
    · exact ⟨n, [], h10, rfl⟩
    · obtain ⟨d, s, hd, hs⟩ := ih (n / 10) (by omega)
      exact ⟨d, s ++ [digitByte (n % 10)], hd, by rw [hs]; rfl⟩

/-- Parsing the decimal form of an integer gives the integer back. -/
theorem parseDecimal_Itoa (i : Int) : parseDecimal (Itoa i) = some i := by
  obtain ⟨d, s, hd, hs⟩ := natDigits_head (i.natAbs + 1) i.natAbs (by omega)
  have hp := parseDigits_natDigits (i.natAbs + 1) i.natAbs (by omega)
  unfold Itoa
  split_ifs with hneg
  · have hne : natDigits (i.natAbs + 1) i.natAbs ≠ [] := by rw [hs]; simp
    simp only [parseDecimal, if_true, if_neg hne, hp, Option.map]
    congr 1
    omega
  · rw [hs]
    simp only [parseDecimal, if_neg (digitByte_ne_minus d hd)]
    rw [← hs, hp]
    simp only [Option.map]
    congr 1
    omega

/-- C13: after `SetStatusCode(code)` the tag `http.status` is the decimal string of
`code` (parsing it as a decimal integer gives `code` back), for positive, zero and
negative codes; every other tag, the name, the start and the registry are unchanged. -/
theorem SetStatusCode_tag (entry : LogEntry) (code : Int) :
    (entry.SetStatusCode code).id.tags (str "http.status") = some (Itoa code) ∧
    parseDecimal (Itoa code) = some code ∧
    (∀ k, k ≠ str "http.status" →
      (entry.SetStatusCode code).id.tags k = entry.id.tags k) ∧
    (entry.SetStatusCode code).id.name = entry.id.name ∧
    (entry.SetStatusCode code).start = entry.start ∧
    (entry.SetStatusCode code).registry = entry.registry := by
  refine ⟨?_, parseDecimal_Itoa code, ?_, rfl, rfl, rfl⟩
  · simp [LogEntry.SetStatusCode, Id.WithTag]
  · intro k hk
    simp [LogEntry.SetStatusCode, Id.WithTag, hk]

/-- Witness of C13: `SetStatusCode(200)` and `SetStatusCode(-1)` on the sample entry. -/
theorem SetStatusCode_tag_witness :
    (sampleEntry.SetStatusCode 200).id.tags (str "http.status") = some (str "200") ∧
    (sampleEntry.SetStatusCode (-1)).id.tags (str "http.status") = some (str "-1") ∧
    parseDecimal (str "-1") = some (-1) ∧
    (sampleEntry.SetStatusCode 200).id.tags (str "http.method") = some (str "GET") := by
  have h := SetStatusCode_tag sampleEntry 200
  have g := SetStatusCode_tag sampleEntry (-1)
  refine ⟨h.1.trans (by decide), g.1.trans (by decide), ?_, ?_⟩
  · have g2 := g.2.1
    have e : Itoa (-1) = str "-1" := by decide
    rw [e] at g2
    exact g2
  · rw [h.2.2.1 _ (by decide)]
    decide

/-- C14: after `SetSuccess` both `ipc.result` and `ipc.status` are `success`, whatever
they were before (absent, or set by `SetError` with any label); every other tag, the
name, the start and the registry are unchanged. -/
theorem SetSuccess_tags (entry : LogEntry) :
    entry.SetSuccess.id.tags (str "ipc.result") = some (str "success") ∧
    entry.SetSuccess.id.tags (str "ipc.status") = some (str "success") ∧
    (∀ err, (entry.SetError err).SetSuccess.id.tags (str "ipc.result") = some (str "success") ∧
      (entry.SetError err).SetSuccess.id.tags (str "ipc.status") = some (str "success")) ∧
    (∀ k, k ≠ str "ipc.result" → k ≠ str "ipc.status" →
      entry.SetSuccess.id.tags k = entry.id.tags k) ∧
    entry.SetSuccess.id.name = entry.id.name ∧
    entry.SetSuccess.start = entry.start ∧
    entry.SetSuccess.registry = entry.registry := by
  have hne : str "ipc.status" ≠ str "ipc.result" := by decide
  have h1 : ∀ e : LogEntry, e.SetSuccess.id.tags (str "ipc.result") = some (str "success") := by
    intro e
    simp [LogEntry.SetSuccess, Id.WithTags, mergeTags, mapLit]
  have h2 : ∀ e : LogEntry, e.SetSuccess.id.tags (str "ipc.status") = some (str "success") := by
    intro e
    simp [LogEntry.SetSuccess, Id.WithTags, mergeTags, mapLit, hne]
  refine ⟨h1 entry, h2 entry, fun err => ⟨h1 _, h2 _⟩, ?_, rfl, rfl, rfl⟩
  intro k k1 k2
  simp [LogEntry.SetSuccess, Id.WithTags, mergeTags, mapLit, k1, k2]

/-- Witness of C14: `SetSuccess` after `SetError("timeout")` on the sample entry. -/
theorem SetSuccess_tags_witness :
    ((sampleEntry.SetError (str "timeout")).SetSuccess).id.tags (str "ipc.status")
      = some (str "success") ∧
    ((sampleEntry.SetError (str "timeout")).SetSuccess).id.tags (str "http.status")
      = some (str "-1") := by
  have h := SetSuccess_tags (sampleEntry.SetError (str "timeout"))
  refine ⟨h.2.1, ?_⟩
  rw [h.2.2.2.1 _ (by decide) (by decide)]
  decide

/-- C15: after `SetError(err)` the tag `ipc.result` is `failure` and the tag
`ipc.status` is exactly `err` (the empty string and `success` included); every other
tag, the name, the start and the registry are unchanged. -/
theorem SetError_tags (entry : LogEntry) (err : GoString) :
    (entry.SetError err).id.tags (str "ipc.result") = some (str "failure") ∧
    (entry.SetError err).id.tags (str "ipc.status") = some err ∧
    (∀ k, k ≠ str "ipc.result" → k ≠ str "ipc.status" →
      (entry.SetError err).id.tags k = entry.id.tags k) ∧
    (entry.SetError err).id.name = entry.id.name ∧
    (entry.SetError err).start = entry.start ∧
    (entry.SetError err).registry = entry.registry := by
  have hne : str "ipc.status" ≠ str "ipc.result" := by decide
  refine ⟨?_, ?_, ?_, rfl, rfl, rfl⟩
  · simp [LogEntry.SetError, Id.WithTags, mergeTags, mapLit]
  · simp [LogEntry.SetError, Id.WithTags, mergeTags, mapLit, hne]
  · intro k k1 k2
    simp [LogEntry.SetError, Id.WithTags, mergeTags, mapLit, k1, k2]

/-- Witness of C15: `SetError("")` and `SetError("success")` on the sample entry. -/
theorem SetError_tags_witness :
    (sampleEntry.SetError (str "")).id.tags (str "ipc.status") = some (str "") ∧
    (sampleEntry.SetError (str "success")).id.tags (str "ipc.result") = some (str "failure") ∧
    (sampleEntry.SetError (str "success")).id.tags (str "ipc.status") = some (str "success") ∧
    (sampleEntry.SetError (str "success")).id.tags (str "owner") = some (str "spectator-go") := by
  have h := SetError_tags sampleEntry (str "success")
  refine ⟨(SetError_tags sampleEntry (str "")).2.1, h.1, h.2.1, ?_⟩
  rw [h.2.2.1 _ (by decide) (by decide)]
  decide

/-- No setter writes `owner`, `ipc.endpoint` or `http.method`. -/
theorem Setter.keeps_initial_keys (s : Setter) :
    str "owner" ∉ s.keys ∧ str "ipc.endpoint" ∉ s.keys ∧ str "http.method" ∉ s.keys := by
  cases s <;> simp only [Setter.keys] <;> decide

/-- C19: after `NewLogEntry(registry, method, url)` and any finite sequence of setter
calls, the name is still `ipc.client.call`, the start and the registry are those
captured at creation, no tag key present at an earlier point has been removed, and
the tags `owner`, `ipc.endpoint`, `http.method` still hold `spectator-go`,
`pathFromUrl(url)` and `method`. -/
theorem setters_frame (registry : Registry) (method url : GoString) (calls : List Setter) :
    ∃ entry endpoint, NewLogEntry registry method url = some entry ∧
      pathFromUrl url = some endpoint ∧
      (applySetters calls entry).id.name = str "ipc.client.call" ∧
      (applySetters calls entry).start = registry.clockNanos ∧
      (applySetters calls entry).registry = registry.ptr ∧
      (∀ earlier later k, calls = earlier ++ later →
        (applySetters earlier entry).id.tags k ≠ none →
        (applySetters calls entry).id.tags k ≠ none) ∧
      (applySetters calls entry).id.tags (str "owner") = some (str "spectator-go") ∧
      (applySetters calls entry).id.tags (str "ipc.endpoint") = some endpoint ∧
      (applySetters calls entry).id.tags (str "http.method") = some method := by
  obtain ⟨endpoint, he⟩ := pathFromUrl_isSome url
  obtain ⟨f1, f2, f3⟩ := applySetters_frame calls
    { registry := registry.ptr, start := registry.clockNanos,
      id := { name := str "ipc.client.call",
              tags := mapLit [(str "owner", str "spectator-go"),
                (str "ipc.endpoint", endpoint), (str "http.method", method),
                (str "http.status", str "-1")] } }
  refine ⟨_, endpoint, NewLogEntry_eq he, he, f1, f2, f3, ?_, ?_, ?_, ?_⟩
  · intro earlier later k hc hk
    rw [hc, applySetters_append]
    exact applySetters_keeps_keys later _ k hk
  · rw [applySetters_other_key calls _ _ (fun s => (Setter.keeps_initial_keys s).1)]
    simp [mapLit]
  · rw [applySetters_other_key calls _ _ (fun s => (Setter.keeps_initial_keys s).2.1)]
    have h1 : str "ipc.endpoint" ≠ str "owner" := by decide
    simp [mapLit, h1]
  · rw [applySetters_other_key calls _ _ (fun s => (Setter.keeps_initial_keys s).2.2)]
    have h1 : str "http.method" ≠ str "owner" := by decide
    have h2 : str "http.method" ≠ str "ipc.endpoint" := by decide
    simp [mapLit, h1, h2]

/-- Witness of C19: `GET http://x/a/b` at clock reading 5, then `SetStatusCode(200)`,
`SetSuccess` and `SetAttempt(1, true)`. -/
theorem setters_frame_witness :
    ∃ entry, NewLogEntry ⟨7, 5, []⟩ (str "GET") (str "http://x/a/b") = some entry ∧
      (applySetters [.statusCode 200, .success, .attempt 1 true] entry).start = 5 ∧
      (applySetters [.statusCode 200, .success, .attempt 1 true] entry).registry = 7 ∧
      (applySetters [.statusCode 200, .success, .attempt 1 true] entry).id.tags
        (str "ipc.endpoint") = some (str "/a/b") ∧
      ((applySetters [.statusCode 200, .success] entry).id.tags (str "ipc.result") ≠ none →
        (applySetters [.statusCode 200, .success, .attempt 1 true] entry).id.tags
          (str "ipc.result") ≠ none) := by
  obtain ⟨entry, endpoint, h1, h2, _, h4, h5, h6, _, h8, _⟩ :=
    setters_frame ⟨7, 5, []⟩ (str "GET") (str "http://x/a/b")
      [.statusCode 200, .success, .attempt 1 true]
  have h3 : pathFromUrl (str "http://x/a/b") = some (str "/a/b") := by decide
  rw [h3] at h2
  have he : endpoint = str "/a/b" := (Option.some.inj h2).symm
  exact ⟨entry, h1, h4, h5, by rw [h8, he],
    h6 [.statusCode 200, .success] [.attempt 1 true] (str "ipc.result") rfl⟩

end Spectator
